import Mathlib

/-!
Shallow embedding of `dwave_networkx/drawing_extended/chimera_layout.py`.

Coordinates are rationals (Python floats hold exact small integer ratios
here; the module only divides once, by `max(m,n)*tile_length - 3`).
Python exceptions become an error enumeration and `Except`.
The `_xy_coords` closure mutates a `grid_offsets` dict; we thread that
cache explicitly as an association list.
-/

/-- Errors raised by the module.  `invalidDimension` and `invalidCenter`
are the two `ValueError`s of `chimera_node_placer_2d`;
`indexInferenceUnsupported` is the `NotImplementedError` raised by
`chimera_layout` when a node lacks a `chimera_index` attribute;
`notBipartite` is the networkx error propagated from `color(G)`;
`notImplemented` is the `NotImplementedError` of the multi-tile branch of
`_find_chimera_indices`; `networkXError` is the error the external
`networkx.diameter` call of line 182 raises on a disconnected (or empty)
graph before line 183 is reached; `valueError` is Python's
`max()`/indexing failure on an empty sequence; `conflictingColorSpec` is
the `ValueError` of `draw_chimera` when explicit colors are combined
with bias maps. -/
inductive LayoutErr where
  | invalidDimension
  | invalidCenter
  | indexInferenceUnsupported
  | notBipartite
  | notImplemented
  | networkXError
  | valueError
  | conflictingColorSpec
  deriving DecidableEq, Repr

/-- Python dictionary read with default, `d.get(a)`: the value stored for
the key, `none` when absent.  Insertion is modelled by consing, so the
head is the most recent binding. -/
def dict_get {α β : Type} [DecidableEq α] : List (α × β) → α → Option β
  | [], _ => none
  | (b, v) :: rest, a => if a = b then some v else dict_get rest a

/-- `tile_center = t // 2` (line 86). -/
def tile_center (t : ℕ) : ℕ := t / 2

/-- `tile_length = t + 3` (line 87). -/
def tile_length (t : ℕ) : ℕ := t + 3

/-- `scale /= max(m, n) * tile_length - 3` (line 88); Python true division. -/
def eff_scale (m n t : ℕ) (scale : ℚ) : ℚ :=
  scale / (((max m n * tile_length t : ℕ) : ℚ) - 3)

/-- The intra-tile position index `p` (lines 108-111). -/
def p_index (t k : ℕ) : ℕ := if k < tile_center t then k else k + 1

/-- The intra-tile integer coordinate pair (lines 113-116).  Python's
`if u:` tests `u ≠ 0`. -/
def intra_xy (t u k : ℕ) : ℤ × ℤ :=
  if u ≠ 0 then ((tile_center t : ℤ), -(p_index t k : ℤ))
  else ((p_index t k : ℤ), -(tile_center t : ℤ))

/-- The inter-tile offset `(j * tile_length, -i * tile_length)` (line 123). -/
def tile_offset (t i j : ℕ) : ℤ × ℤ :=
  ((j * tile_length t : ℤ), -((i * tile_length t : ℕ) : ℤ))

/-- The `grid_offsets` dictionary of the `_xy_coords` closure (line 90),
as an association list keyed by the tile coordinate. -/
abbrev OffsetCache := List ((ℕ × ℕ) × (ℤ × ℤ))

/-- The integer part of `_xy_coords` (lines 104-125): intra-tile pair,
then the cached inter-tile offset added when `i > 0 or j > 0`.
Returns the pair together with the (possibly grown) cache. -/
def xy_pre (t : ℕ) (cache : OffsetCache) (i j u k : ℕ) :
    (ℤ × ℤ) × OffsetCache :=
  let xy := intra_xy t u k
  if i > 0 ∨ j > 0 then
    match dict_get cache (i, j) with
    | some off => (xy + off, cache)
    | none =>
      let off := tile_offset t i j
      (xy + off, ((i, j), off) :: cache)
  else (xy, cache)

/-- `np.hstack((xy * scale, np.zeros(paddims))) + center` (line 128):
scale the integer pair, pad with `dim - 2` zeros, add `center`
componentwise. -/
def point_of_xy (scale : ℚ) (center : List ℚ) (dim : ℕ) (xy : ℤ × ℤ) :
    List ℚ :=
  List.zipWith (· + ·)
    ([(xy.1 : ℚ) * scale, (xy.2 : ℚ) * scale] ++ List.replicate (dim - 2) 0)
    center

/-- The data captured by the `_xy_coords` closure: lattice dimensions,
the already-divided effective scale, the resolved center, and `dim`. -/
structure Placer where
  m : ℕ
  n : ℕ
  t : ℕ
  scale : ℚ
  center : List ℚ
  dim : ℕ
  deriving DecidableEq, Repr

/-- `chimera_node_placer_2d` (lines 53-130): resolve `center`
(`None` becomes `np.zeros(dim)`), reject `dim < 2`
("layout must have at least two dimensions"), reject a center whose
length differs from `dim`, and otherwise capture the closure data. -/
def chimera_node_placer_2d (m n t : ℕ) (scale : ℚ)
    (center? : Option (List ℚ)) (dim : ℕ) : Except LayoutErr Placer :=
  let c := match center? with
    | none => List.replicate dim (0 : ℚ)
    | some c => c
  if dim < 2 then .error .invalidDimension
  else if c.length ≠ dim then .error .invalidCenter
  else .ok ⟨m, n, t, eff_scale m n t scale, c, dim⟩

/-- One call of the `_xy_coords` closure (lines 104-128): the final point
and the updated tile-offset cache. -/
def xy_coords (P : Placer) (cache : OffsetCache) (i j u k : ℕ) :
    List ℚ × OffsetCache :=
  let r := xy_pre P.t cache i j u k
  (point_of_xy P.scale P.center P.dim r.1, r.2)

/-- The point returned for one index by a freshly built placer, `[]` for
a placer-construction error.  Convenience wrapper used in statements. -/
def mapped_point (m n t : ℕ) (scale : ℚ) (center? : Option (List ℚ))
    (dim i j u k : ℕ) : List ℚ :=
  match chimera_node_placer_2d m n t scale center? dim with
  | .ok P => (xy_coords P [] i j u k).1
  | .error _ => []

/-- A cache state is consistent when every stored offset is the tile
offset of its key.  The empty cache is consistent, and (lemma below)
`xy_pre` preserves consistency, so every reachable cache state is. -/
def CacheConsistent (t : ℕ) (cache : OffsetCache) : Prop :=
  ∀ p off, dict_get cache p = some off → off = tile_offset t p.1 p.2

/-- The Python dict comprehension of line 48: apply `_xy_coords` to every
node's index in order, threading the closure's offset cache. -/
def place_all (P : Placer) :
    List (ℕ × (ℕ × ℕ × ℕ × ℕ)) → OffsetCache → List (ℕ × List ℚ)
  | [], _ => []
  | (v, (i, j, u, k)) :: rest, cache =>
    let r := xy_coords P cache i j u k
    (v, r.1) :: place_all P rest r.2

/-- The `all('chimera_index' in dat ...)` test of line 35 together with
the comprehension of line 36: `some` of the node/index pairs when every
node carries an index, `none` when at least one lacks it. -/
def extract_indices :
    List (ℕ × Option (ℕ × ℕ × ℕ × ℕ)) → Option (List (ℕ × (ℕ × ℕ × ℕ × ℕ)))
  | [] => some []
  | (_, none) :: _ => none
  | (v, some idx) :: rest => (extract_indices rest).map ((v, idx) :: ·)

/-- `max(...) + 1` over the first index components (line 37). -/
def derive_m (l : List (ℕ × (ℕ × ℕ × ℕ × ℕ))) : ℕ :=
  (l.map fun p => p.2.1).foldr max 0 + 1

/-- `max(...) + 1` over the second index components (line 38). -/
def derive_n (l : List (ℕ × (ℕ × ℕ × ℕ × ℕ))) : ℕ :=
  (l.map fun p => p.2.2.1).foldr max 0 + 1

/-- `max(...) + 1` over the fourth index components (line 39). -/
def derive_t (l : List (ℕ × (ℕ × ℕ × ℕ × ℕ))) : ℕ :=
  (l.map fun p => p.2.2.2.2).foldr max 0 + 1

/-- `chimera_layout` (lines 23-50).  A graph is modelled by its node list,
each node paired with its optional `chimera_index` attribute (edges play
no role in the function).  When some node lacks the attribute the code
raises `NotImplementedError` (line 41; the spec's
`IndexInferenceUnsupported`).  When the graph is empty, Python's `max`
over an empty generator raises `ValueError`. -/
def chimera_layout (G : List (ℕ × Option (ℕ × ℕ × ℕ × ℕ))) (scale : ℚ)
    (center? : Option (List ℚ)) (dim : ℕ) :
    Except LayoutErr (List (ℕ × List ℚ)) :=
  match extract_indices G with
  | none => .error .indexInferenceUnsupported
  | some chimera_indices =>
    match chimera_indices with
    | [] => .error .valueError
    | l =>
      match chimera_node_placer_2d (derive_m l) (derive_n l) (derive_t l)
          scale center? dim with
      | .error e => .error e
      | .ok P => .ok (place_all P l [])

/-- The flip of lines 155-156: if the lowest-ordered node `v0` was not
colored 1, replace the coloring by `1 - coloring[v]`. -/
def flip_coloring (c : ℕ → ℕ) (v0 : ℕ) : ℕ → ℕ :=
  if c v0 ≠ 1 then fun v => 1 - c v else c

/-- The assignment loop of lines 170-176: walk the ordered node list,
give each node shore `u = 1 - coloring[v]` and the current value of that
shore's counter, then bump the counter. -/
def assign_indices (c : ℕ → ℕ) :
    List ℕ → ℕ → ℕ → List (ℕ × (ℕ × ℕ × ℕ × ℕ))
  | [], _, _ => []
  | v :: rest, s0, s1 =>
    if 1 - c v = 0 then
      (v, (0, 0, 0, s0)) :: assign_indices c rest (s0 + 1) s1
    else (v, (0, 0, 1 - c v, s1)) :: assign_indices c rest s0 (s1 + 1)

/-- `delta = max(G.degree(v) for v in G)` (line 159). -/
def max_degree (nlist : List ℕ) (degree : ℕ → ℕ) : ℕ :=
  (nlist.map degree).foldr max 0

/-- The shore-size count of lines 162-164: how many nodes carry the color
`u` under the (possibly flipped) coloring. -/
def shore_count (nlist : List ℕ) (c : ℕ → ℕ) (u : ℕ) : ℕ :=
  nlist.countP fun v => c v = u

/-- `_find_chimera_indices` (lines 133-183).  The graph enters through
its sorted node list `nlist`, the result of the external
`networkx.algorithms.bipartite.color` call (`none` models the exception
raised on a non-bipartite graph, per the comment on lines 148-149), the
result of the external `networkx.diameter` call of line 182 (`none`
models the `NetworkXError` it raises on a disconnected or empty graph),
and the node-degree function.  An empty `nlist` makes
`coloring[nlist[0]]` raise.  After the flip, shore sizes are counted;
when the larger shore equals the maximum degree the single-tile
assignment runs; otherwise the multi-tile branch first evaluates
`dia = diameter(G)` — which itself fails on a disconnected graph — and
only then raises `NotImplementedError` (line 183). -/
def find_chimera_indices (nlist : List ℕ) (color_result : Option (ℕ → ℕ))
    (diameter_result : Option ℕ) (degree : ℕ → ℕ) :
    Except LayoutErr (List (ℕ × (ℕ × ℕ × ℕ × ℕ))) :=
  match color_result with
  | none => .error .notBipartite
  | some coloring0 =>
    match nlist with
    | [] => .error .valueError
    | v0 :: rest =>
      if max (shore_count (v0 :: rest) (flip_coloring coloring0 v0) 0)
          (shore_count (v0 :: rest) (flip_coloring coloring0 v0) 1)
          = max_degree (v0 :: rest) degree then
        .ok (assign_indices (flip_coloring coloring0 v0) (v0 :: rest) 0 0)
      else
        match diameter_result with
        | none => .error .networkXError
        | some _ => .error .notImplemented

/-- `quadratic_biases.get(p, 0)`: dictionary membership test plus read,
as in lines 218-221 and 228-229. -/
def qget (Q : List ((ℕ × ℕ) × ℚ)) (p : ℕ × ℕ) : ℚ := (dict_get Q p).getD 0

/-- `edge_color(u, v)` of lines 216-222. -/
def edge_color_val (Q : List ((ℕ × ℕ) × ℚ)) (u v : ℕ) : ℚ :=
  qget Q (u, v) + qget Q (v, u)

/-- `node_color(v)` of lines 224-230. -/
def node_color_val (L : List (ℕ × ℚ)) (Q : List ((ℕ × ℕ) × ℚ)) (v : ℕ) :
    ℚ := (dict_get L v).getD 0 + qget Q (v, v)

/-- Python's `max` over a list: `ValueError` on the empty list, the fold
of binary `max` from the head otherwise. -/
def pymax (l : List ℚ) : Except LayoutErr ℚ :=
  match l with
  | [] => .error .valueError
  | x :: xs => .ok (xs.foldl max x)

/-- The computational part of `draw_chimera` (lines 193-246): when a bias
map is non-empty, reject explicit `node_color`/`edge_color` kwargs,
compute per-node and per-edge colors, compute
`vmag = max(max(abs(node colors)), max(abs(edge colors)))` — Python's
`max` raising on an empty color list — and default each unspecified
color-scale bound to `±vmag`.  Returns the node colors, edge colors, and
the four bounds handed to `draw`; without biases the colors are untouched
and the caller's bounds pass through. -/
def draw_chimera_compute (L : List (ℕ × ℚ)) (Q : List ((ℕ × ℕ) × ℚ))
    (nodelist : List ℕ) (edgelist : List (ℕ × ℕ))
    (node_color_kw edge_color_kw : Bool)
    (vmin? vmax? edge_vmin? edge_vmax? : Option ℚ) :
    Except LayoutErr
      (List ℚ × List ℚ × Option ℚ × Option ℚ × Option ℚ × Option ℚ) :=
  if L ≠ [] ∨ Q ≠ [] then
    if node_color_kw ∨ edge_color_kw then .error .conflictingColorSpec
    else
      match pymax ((nodelist.map (node_color_val L Q)).map abs),
        pymax ((edgelist.map fun p =>
          edge_color_val Q p.1 p.2).map abs) with
      | .ok a, .ok b =>
        .ok (nodelist.map (node_color_val L Q),
          edgelist.map fun p => edge_color_val Q p.1 p.2,
          some (vmin?.getD (-(max a b))), some (vmax?.getD (max a b)),
          some (edge_vmin?.getD (-(max a b))),
          some (edge_vmax?.getD (max a b)))
      | _, _ => .error .valueError
  else .ok ([], [], vmin?, vmax?, edge_vmin?, edge_vmax?)

/-- The closed-form point of the specification, written from its words:
`tile_center = T//2`, `tile_length = T+3`,
`s = scale/(max(M,N)*tile_length - 3)`, `p = k` if `k < tile_center` else
`k+1`, intra-tile pair `(tile_center, -p)` for `u = 1` and
`(p, -tile_center)` for `u = 0`, result
`(intra + (j*tile_length, -i*tile_length)) * s` extended with `dim - 2`
zero coordinates and translated by `center`. -/
def spec_closed_form (m n t : ℕ) (scale : ℚ) (center : List ℚ)
    (dim i j u k : ℕ) : List ℚ :=
  let s : ℚ := scale / ((max m n : ℚ) * ((t : ℚ) + 3) - 3)
  let p : ℚ := if k < t / 2 then (k : ℚ) else (k : ℚ) + 1
  let ix : ℚ := if u = 1 then ((t / 2 : ℕ) : ℚ) else p
  let iy : ℚ := if u = 1 then -p else -((t / 2 : ℕ) : ℚ)
  List.zipWith (· + ·)
    ([(ix + (j : ℚ) * ((t : ℚ) + 3)) * s,
      (iy - (i : ℚ) * ((t : ℚ) + 3)) * s]
      ++ List.replicate (dim - 2) 0) center

/-- The cache-free value of the integer pair computed by `_xy_coords`:
intra-tile pair plus inter-tile offset. -/
def xy_pure (t i j u k : ℕ) : ℤ × ℤ :=
  intra_xy t u k + tile_offset t i j

/-- The x-component of the intra-tile pair, as a natural number. -/
def xoff (t u k : ℕ) : ℕ :=
  if u ≠ 0 then tile_center t else p_index t k

/-- The magnitude of the y-component of the intra-tile pair. -/
def yoff (t u k : ℕ) : ℕ :=
  if u ≠ 0 then p_index t k else tile_center t

lemma xy_pure_eq (t i j u k : ℕ) :
    xy_pure t i j u k =
      (((xoff t u k + j * tile_length t : ℕ) : ℤ),
        -(((yoff t u k + i * tile_length t : ℕ) : ℤ))) := by
  unfold xy_pure intra_xy tile_offset xoff yoff
  split_ifs <;>
    (rw [Prod.mk_add_mk, Prod.mk.injEq]; constructor <;> (push_cast; ring))

lemma xy_pre_fst (t : ℕ) (cache : OffsetCache) (i j u k : ℕ)
    (h : CacheConsistent t cache) :
    (xy_pre t cache i j u k).1 = xy_pure t i j u k := by
  unfold xy_pre xy_pure
  by_cases hij : i > 0 ∨ j > 0
  · simp only [hij, if_true]
    cases hfind : dict_get cache (i, j) with
    | some off => simp [h _ _ hfind]
    | none => simp
  · have hi : i = 0 := by omega
    have hj : j = 0 := by omega
    subst hi; subst hj
    simp [tile_offset, tile_length]

lemma xy_pre_snd (t : ℕ) (cache : OffsetCache) (i j u k : ℕ)
    (h : CacheConsistent t cache) :
    CacheConsistent t (xy_pre t cache i j u k).2 := by
  unfold xy_pre
  by_cases hij : i > 0 ∨ j > 0
  · simp only [hij, if_true]
    cases hfind : dict_get cache (i, j) with
    | some off => simpa using h
    | none =>
      simp only []
      intro p off hl
      by_cases hp : p = (i, j)
      · subst hp
        simp [dict_get] at hl
        subst hl
        rfl
      · have : dict_get cache p = some off := by
          simpa [dict_get, hp] using hl
        exact h _ _ this
  · simpa [hij] using h

lemma eff_scale_eq_spec (m n t : ℕ) (scale : ℚ) :
    eff_scale m n t scale =
      scale / ((max m n : ℚ) * ((t : ℚ) + 3) - 3) := by
  unfold eff_scale tile_length
  push_cast
  ring_nf

lemma cast_natdiv (t : ℕ) : (((t : ℤ) / 2 : ℤ) : ℚ) = ((t / 2 : ℕ) : ℚ) := by
  norm_cast

lemma point_of_xy_spec (m n t : ℕ) (scale : ℚ) (center : List ℚ)
    (dim i j u k : ℕ) (hu : u < 2) :
    point_of_xy (eff_scale m n t scale) center dim (xy_pure t i j u k) =
      spec_closed_form m n t scale center dim i j u k := by
  unfold point_of_xy spec_closed_form
  rw [xy_pure_eq]
  congr 1
  have h2 : u = 0 ∨ u = 1 := by omega
  rcases h2 with h | h <;> subst h
  · simp [xoff, yoff, p_index, tile_center, tile_length, eff_scale_eq_spec]
    refine Or.inl ?_
    push_cast
    simp only [cast_natdiv]
    try ring
  · simp [xoff, yoff, p_index, tile_center, tile_length, eff_scale_eq_spec]
    refine ⟨Or.inl ?_, Or.inl ?_⟩
    · push_cast
      simp only [cast_natdiv]
    · push_cast
      split_ifs <;> ring

lemma cache_consistent_nil (t : ℕ) : CacheConsistent t [] := by
  intro p off h
  simp [dict_get] at h

lemma placer_ok (m n t : ℕ) (scale : ℚ) (center : List ℚ) (dim : ℕ)
    (hdim : 2 ≤ dim) (hc : center.length = dim) :
    chimera_node_placer_2d m n t scale (some center) dim =
      .ok ⟨m, n, t, eff_scale m n t scale, center, dim⟩ := by
  unfold chimera_node_placer_2d
  rw [if_neg (by omega : ¬ dim < 2)]
  simp [hc]

/-- C1: for every valid lattice `(M,N,T)`, scale, center of length
`dim ≥ 2`, and in-bounds index `(i,j,u,k)`, the mapper built by
`chimera_node_placer_2d` returns exactly the spec's closed-form value —
for any consistent tile-offset cache state, which also stays consistent.
Since the closed form does not mention the cache, repeated calls return
identical coordinates and the cache has no externally observable
effect. -/
theorem chimera_c1_closed_form (m n t : ℕ) (scale : ℚ) (center : List ℚ)
    (dim : ℕ) (P : Placer) (cache : OffsetCache) (i j u k : ℕ)
    (hm : 0 < m) (hn : 0 < n) (ht : 0 < t) (hdim : 2 ≤ dim)
    (hc : center.length = dim)
    (hP : chimera_node_placer_2d m n t scale (some center) dim = .ok P)
    (hi : i < m) (hj : j < n) (hu : u < 2) (hk : k < t)
    (hcache : CacheConsistent t cache) :
    (xy_coords P cache i j u k).1 =
      spec_closed_form m n t scale center dim i j u k ∧
    CacheConsistent t (xy_coords P cache i j u k).2 ∧
    (xy_coords P cache i j u k).1 = (xy_coords P [] i j u k).1 := by
  rw [placer_ok m n t scale center dim hdim hc] at hP
  injection hP with hP
  subst hP
  have hfst : ∀ c : OffsetCache, CacheConsistent t c →
      (xy_coords ⟨m, n, t, eff_scale m n t scale, center, dim⟩
        c i j u k).1 =
        spec_closed_form m n t scale center dim i j u k := by
    intro c hcons
    show point_of_xy (eff_scale m n t scale) center dim
        (xy_pre t c i j u k).1 = _
    rw [xy_pre_fst t c i j u k hcons]
    exact point_of_xy_spec m n t scale center dim i j u k hu
  refine ⟨hfst cache hcache, ?_, ?_⟩
  · exact xy_pre_snd t cache i j u k hcache
  · rw [hfst cache hcache, hfst [] (cache_consistent_nil t)]

/-- Witness for C1 at `M = N = T = 1`, `scale = 1`, `center = (0,0)`,
`dim = 2`, index `(0,0,0,0)`, empty cache. -/
theorem chimera_c1_witness :
    (xy_coords ⟨1, 1, 1, eff_scale 1 1 1 1, [0, 0], 2⟩ [] 0 0 0 0).1 =
      spec_closed_form 1 1 1 1 [0, 0] 2 0 0 0 0 ∧
    CacheConsistent 1
      (xy_coords ⟨1, 1, 1, eff_scale 1 1 1 1, [0, 0], 2⟩ [] 0 0 0 0).2 ∧
    (xy_coords ⟨1, 1, 1, eff_scale 1 1 1 1, [0, 0], 2⟩ [] 0 0 0 0).1 =
      (xy_coords ⟨1, 1, 1, eff_scale 1 1 1 1, [0, 0], 2⟩ [] 0 0 0 0).1 :=
  chimera_c1_closed_form 1 1 1 1 [0, 0] 2
    ⟨1, 1, 1, eff_scale 1 1 1 1, [0, 0], 2⟩ [] 0 0 0 0
    (by decide) (by decide) (by decide) (by decide) rfl rfl
    (by decide) (by decide) (by decide) (by decide)
    (cache_consistent_nil 1)

lemma p_index_inj (t k k' : ℕ) (h : p_index t k = p_index t k') : k = k' := by
  unfold p_index tile_center at h
  split_ifs at h <;> omega

lemma p_index_ne_center (t k : ℕ) : p_index t k ≠ tile_center t := by
  unfold p_index tile_center
  split_ifs <;> omega

lemma p_index_le (t k : ℕ) (hk : k < t) : p_index t k ≤ t := by
  unfold p_index tile_center
  split_ifs <;> omega

lemma xoff_lt (t u k : ℕ) (hk : k < t) : xoff t u k < tile_length t := by
  have h1 := p_index_le t k hk
  unfold xoff tile_center tile_length at *
  split_ifs <;> omega

lemma yoff_lt (t u k : ℕ) (hk : k < t) : yoff t u k < tile_length t := by
  have h1 := p_index_le t k hk
  unfold yoff tile_center tile_length at *
  split_ifs <;> omega

lemma mul_add_nat_inj (L : ℕ) (hL : 0 < L) {a a' j j' : ℕ}
    (ha : a < L) (ha' : a' < L) (h : a + j * L = a' + j' * L) :
    a = a' ∧ j = j' := by
  have hj : j = j' := by
    have h1 : (a + j * L) / L = j := by
      rw [Nat.add_mul_div_right _ _ hL, Nat.div_eq_of_lt ha]
      omega
    have h2 : (a' + j' * L) / L = j' := by
      rw [Nat.add_mul_div_right _ _ hL, Nat.div_eq_of_lt ha']
      omega
    rw [← h1, ← h2, h]
  subst hj
  exact ⟨by omega, rfl⟩

lemma xy_pure_inj (t i j u k i' j' u' k' : ℕ) (hu : u < 2) (hu' : u' < 2)
    (hk : k < t) (hk' : k' < t)
    (h : xy_pure t i j u k = xy_pure t i' j' u' k') :
    i = i' ∧ j = j' ∧ u = u' ∧ k = k' := by
  rw [xy_pure_eq, xy_pure_eq, Prod.mk.injEq] at h
  have hx : xoff t u k + j * tile_length t
      = xoff t u' k' + j' * tile_length t := by exact_mod_cast h.1
  have hy : yoff t u k + i * tile_length t
      = yoff t u' k' + i' * tile_length t := by
    have h2 := h.2
    rw [neg_inj] at h2
    exact_mod_cast h2
  have hL : 0 < tile_length t := by unfold tile_length; omega
  obtain ⟨hxeq, hjeq⟩ :=
    mul_add_nat_inj _ hL (xoff_lt t u k hk) (xoff_lt t u' k' hk') hx
  obtain ⟨hyeq, hieq⟩ :=
    mul_add_nat_inj _ hL (yoff_lt t u k hk) (yoff_lt t u' k' hk') hy
  refine ⟨hieq, hjeq, ?_, ?_⟩ <;>
  · have h2 : u = 0 ∨ u = 1 := by omega
    have h2' : u' = 0 ∨ u' = 1 := by omega
    rcases h2 with h0 | h1 <;> rcases h2' with h0' | h1' <;>
        subst_vars <;>
        simp [xoff, yoff] at hxeq hyeq <;>
        first
          | rfl
          | exact p_index_inj t _ _ hxeq
          | exact p_index_inj t _ _ hyeq
          | exact absurd hxeq (p_index_ne_center t _)
          | exact absurd hxeq.symm (p_index_ne_center t _)
          | exact absurd hyeq (p_index_ne_center t _)
          | exact absurd hyeq.symm (p_index_ne_center t _)

lemma eff_scale_pos (m n t : ℕ) (scale : ℚ) (hm : 0 < m) (hn : 0 < n)
    (ht : 0 < t) (hs : 0 < scale) : 0 < eff_scale m n t scale := by
  unfold eff_scale
  apply div_pos hs
  have h4 : 4 ≤ max m n * tile_length t := by
    have h1 : 1 ≤ max m n := le_trans hm (le_max_left m n)
    have h2 : 4 ≤ tile_length t := by unfold tile_length; omega
    calc 4 = 1 * 4 := by ring
    _ ≤ max m n * tile_length t := Nat.mul_le_mul h1 h2
  have h5 : (4 : ℚ) ≤ ((max m n * tile_length t : ℕ) : ℚ) := by
    exact_mod_cast h4
  linarith

lemma point_of_xy_inj (s : ℚ) (hs : s ≠ 0) (center : List ℚ) (dim : ℕ)
    (hdim : 2 ≤ dim) (hc : center.length = dim) (A B : ℤ × ℤ)
    (h : point_of_xy s center dim A = point_of_xy s center dim B) :
    A = B := by
  rcases center with _ | ⟨c0, rest⟩
  · simp at hc; omega
  rcases rest with _ | ⟨c1, rest2⟩
  · simp at hc; omega
  unfold point_of_xy at h
  simp only [List.cons_append, List.nil_append, List.zipWith_cons_cons,
    List.cons.injEq] at h
  obtain ⟨h1, h2, _⟩ := h
  have e1 : (A.1 : ℚ) = B.1 :=
    mul_right_cancel₀ hs (by linarith)
  have e2 : (A.2 : ℚ) = B.2 :=
    mul_right_cancel₀ hs (by linarith)
  have e1' : A.1 = B.1 := by exact_mod_cast e1
  have e2' : A.2 = B.2 := by exact_mod_cast e2
  exact Prod.ext e1' e2'

/-- C2: for a fixed valid lattice and positive scale, the mapper is
injective on in-bounds indices: two distinct index tuples are sent to
different points, whatever consistent cache states the two calls see. -/
theorem chimera_c2_injective (m n t : ℕ) (scale : ℚ) (center : List ℚ)
    (dim : ℕ) (P : Placer) (c1 c2 : OffsetCache)
    (i j u k i' j' u' k' : ℕ)
    (hm : 0 < m) (hn : 0 < n) (ht : 0 < t) (hscale : 0 < scale)
    (hdim : 2 ≤ dim) (hc : center.length = dim)
    (hP : chimera_node_placer_2d m n t scale (some center) dim = .ok P)
    (hi : i < m) (hj : j < n) (hu : u < 2) (hk : k < t)
    (hi' : i' < m) (hj' : j' < n) (hu' : u' < 2) (hk' : k' < t)
    (hcc1 : CacheConsistent t c1) (hcc2 : CacheConsistent t c2)
    (hne : (i, j, u, k) ≠ (i', j', u', k')) :
    (xy_coords P c1 i j u k).1 ≠ (xy_coords P c2 i' j' u' k').1 := by
  rw [placer_ok m n t scale center dim hdim hc] at hP
  injection hP with hP
  subst hP
  intro heq
  have hfst1 : (xy_coords ⟨m, n, t, eff_scale m n t scale, center, dim⟩
      c1 i j u k).1 =
      point_of_xy (eff_scale m n t scale) center dim (xy_pure t i j u k) := by
    show point_of_xy _ _ _ (xy_pre t c1 i j u k).1 = _
    rw [xy_pre_fst t c1 i j u k hcc1]
  have hfst2 : (xy_coords ⟨m, n, t, eff_scale m n t scale, center, dim⟩
      c2 i' j' u' k').1 =
      point_of_xy (eff_scale m n t scale) center dim
        (xy_pure t i' j' u' k') := by
    show point_of_xy _ _ _ (xy_pre t c2 i' j' u' k').1 = _
    rw [xy_pre_fst t c2 i' j' u' k' hcc2]
  rw [hfst1, hfst2] at heq
  have hs : eff_scale m n t scale ≠ 0 :=
    ne_of_gt (eff_scale_pos m n t scale hm hn ht hscale)
  have hAB := point_of_xy_inj _ hs center dim hdim hc _ _ heq
  obtain ⟨e1, e2, e3, e4⟩ :=
    xy_pure_inj t i j u k i' j' u' k' hu hu' hk hk' hAB
  exact hne (by simp [e1, e2, e3, e4])

/-- Witness for C2 at `M = N = T = 1`, distinct indices `(0,0,0,0)` and
`(0,0,1,0)`, both calls on the empty cache. -/
theorem chimera_c2_witness :
    (xy_coords ⟨1, 1, 1, eff_scale 1 1 1 1, [0, 0], 2⟩ [] 0 0 0 0).1 ≠
      (xy_coords ⟨1, 1, 1, eff_scale 1 1 1 1, [0, 0], 2⟩ [] 0 0 1 0).1 :=
  chimera_c2_injective 1 1 1 1 [0, 0] 2
    ⟨1, 1, 1, eff_scale 1 1 1 1, [0, 0], 2⟩ [] [] 0 0 0 0 0 0 1 0
    (by decide) (by decide) (by decide) (by decide) (by decide) rfl rfl
    (by decide) (by decide) (by decide) (by decide)
    (by decide) (by decide) (by decide) (by decide)
    (cache_consistent_nil 1) (cache_consistent_nil 1) (by decide)

lemma placer_none_ok (m n t : ℕ) (scale : ℚ) :
    chimera_node_placer_2d m n t scale none 2 =
      .ok ⟨m, n, t, eff_scale m n t scale, [0, 0], 2⟩ := rfl

lemma xoff_le (t u k : ℕ) (hk : k < t) : xoff t u k ≤ t := by
  have h1 := p_index_le t k hk
  unfold xoff tile_center at *
  split_ifs <;> omega

lemma yoff_le (t u k : ℕ) (hk : k < t) : yoff t u k ≤ t := by
  have h1 := p_index_le t k hk
  unfold yoff tile_center at *
  split_ifs <;> omega

lemma mapped_point_eval (m n t : ℕ) (scale : ℚ) (i j u k : ℕ) :
    mapped_point m n t scale none 2 i j u k =
      [((xoff t u k + j * tile_length t : ℕ) : ℚ) * eff_scale m n t scale,
        -(((yoff t u k + i * tile_length t : ℕ) : ℚ)
          * eff_scale m n t scale)] := by
  unfold mapped_point
  rw [placer_none_ok]
  show (xy_coords ⟨m, n, t, eff_scale m n t scale, [0, 0], 2⟩
    [] i j u k).1 = _
  have hfst : (xy_coords ⟨m, n, t, eff_scale m n t scale, [0, 0], 2⟩
      [] i j u k).1 =
      point_of_xy (eff_scale m n t scale) [0, 0] 2 (xy_pure t i j u k) := by
    show point_of_xy _ _ _ (xy_pre t [] i j u k).1 = _
    rw [xy_pre_fst t [] i j u k (cache_consistent_nil t)]
  rw [hfst, xy_pure_eq]
  unfold point_of_xy
  simp
  push_cast
  ring_nf

lemma four_le_prod (m n t : ℕ) (hm : 0 < m) (hn : 0 < n) (ht : 0 < t) :
    4 ≤ max m n * tile_length t := by
  have h1 : 1 ≤ max m n := le_trans hm (le_max_left m n)
  have h2 : 4 ≤ tile_length t := by unfold tile_length; omega
  calc 4 = 1 * 4 := by ring
  _ ≤ max m n * tile_length t := Nat.mul_le_mul h1 h2

lemma denom_pos (m n t : ℕ) (hm : 0 < m) (hn : 0 < n) (ht : 0 < t) :
    0 < ((max m n * tile_length t : ℕ) : ℚ) - 3 := by
  have h4 := four_le_prod m n t hm hn ht
  have h5 : (4 : ℚ) ≤ ((max m n * tile_length t : ℕ) : ℚ) := by
    exact_mod_cast h4
  linarith

lemma numer_le (t off idx cnt mx : ℕ) (hoff : off ≤ t) (hidx : idx < cnt)
    (hcnt : cnt ≤ mx) :
    off + idx * tile_length t ≤ mx * tile_length t - 3 := by
  have h2 : idx * tile_length t ≤ (cnt - 1) * tile_length t :=
    Nat.mul_le_mul_right _ (by omega)
  have h3 : (cnt - 1) * tile_length t + (t + 3) = cnt * tile_length t := by
    have hc : cnt - 1 + 1 = cnt := by omega
    calc (cnt - 1) * tile_length t + (t + 3)
        = (cnt - 1 + 1) * tile_length t := by unfold tile_length; ring
    _ = cnt * tile_length t := by rw [hc]
  have h4 : cnt * tile_length t ≤ mx * tile_length t :=
    Nat.mul_le_mul_right _ hcnt
  have h5 : tile_length t = t + 3 := rfl
  omega

lemma coord_le_one (m n t off idx cnt : ℕ) (hm : 0 < m) (hn : 0 < n)
    (ht : 0 < t) (hoff : off ≤ t) (hidx : idx < cnt)
    (hcnt : cnt ≤ max m n) :
    ((off + idx * tile_length t : ℕ) : ℚ) * eff_scale m n t 1 ≤ 1 := by
  have hD := denom_pos m n t hm hn ht
  have h4 := four_le_prod m n t hm hn ht
  have hle := numer_le t off idx cnt (max m n) hoff hidx hcnt
  have hcast : ((off + idx * tile_length t : ℕ) : ℚ) ≤
      ((max m n * tile_length t : ℕ) : ℚ) - 3 := by
    have h1 : ((off + idx * tile_length t : ℕ) : ℚ) ≤
        ((max m n * tile_length t - 3 : ℕ) : ℚ) := by exact_mod_cast hle
    have h2 : ((max m n * tile_length t - 3 : ℕ) : ℚ) =
        ((max m n * tile_length t : ℕ) : ℚ) - 3 := by
      have h3 : 3 ≤ max m n * tile_length t := by omega
      push_cast [Nat.cast_sub h3]
      ring
    rw [h2] at h1
    exact h1
  unfold eff_scale
  rw [one_div, ← div_eq_mul_inv]
  rw [div_le_one hD]
  exact hcast

lemma coord_lt_one (m n t off idx cnt : ℕ) (hm : 0 < m) (hn : 0 < n)
    (ht : 0 < t) (hoff : off ≤ t) (hidx : idx < cnt)
    (hcnt : cnt < max m n) :
    ((off + idx * tile_length t : ℕ) : ℚ) * eff_scale m n t 1 < 1 := by
  have hD := denom_pos m n t hm hn ht
  have h4 := four_le_prod m n t hm hn ht
  have hle := numer_le t off idx cnt cnt hoff hidx (le_refl cnt)
  have hstep : cnt * tile_length t + tile_length t ≤
      max m n * tile_length t := by
    have h1 : cnt + 1 ≤ max m n := hcnt
    calc cnt * tile_length t + tile_length t
        = (cnt + 1) * tile_length t := by ring
    _ ≤ max m n * tile_length t := Nat.mul_le_mul_right _ h1
  have hL4 : 4 ≤ tile_length t := by unfold tile_length; omega
  have hstrict : off + idx * tile_length t + 1 ≤
      max m n * tile_length t - 3 := by omega
  have hcast : ((off + idx * tile_length t : ℕ) : ℚ) <
      ((max m n * tile_length t : ℕ) : ℚ) - 3 := by
    have h1 : ((off + idx * tile_length t + 1 : ℕ) : ℚ) ≤
        ((max m n * tile_length t - 3 : ℕ) : ℚ) := by
      exact_mod_cast hstrict
    have h2 : ((max m n * tile_length t - 3 : ℕ) : ℚ) =
        ((max m n * tile_length t : ℕ) : ℚ) - 3 := by
      have h3 : 3 ≤ max m n * tile_length t := by omega
      push_cast [Nat.cast_sub h3]
      ring
    rw [h2] at h1
    have h5 : ((off + idx * tile_length t + 1 : ℕ) : ℚ) =
        ((off + idx * tile_length t : ℕ) : ℚ) + 1 := by
      push_cast
      ring
    rw [h5] at h1
    linarith
  unfold eff_scale
  rw [one_div, ← div_eq_mul_inv, div_lt_one hD]
  exact hcast

lemma coord_nonneg (m n t N : ℕ) (hm : 0 < m) (hn : 0 < n) (ht : 0 < t) :
    0 ≤ ((N : ℕ) : ℚ) * eff_scale m n t 1 := by
  apply mul_nonneg (by positivity)
  exact le_of_lt (eff_scale_pos m n t 1 hm hn ht one_pos)

lemma p_index_last (t : ℕ) (ht : 0 < t) : p_index t (t - 1) = t := by
  unfold p_index tile_center
  split_ifs <;> omega

lemma coord_extreme (m n t cnt : ℕ) (ht : 0 < t) (hmax : max m n = cnt)
    (hc4 : 4 ≤ cnt * tile_length t) :
    ((t + (cnt - 1) * tile_length t : ℕ) : ℚ) * eff_scale m n t 1 = 1 := by
  have hcnt : 0 < cnt := by
    rcases Nat.eq_zero_or_pos cnt with h | h
    · subst h; simp [tile_length] at hc4
    · exact h
  have h3 : (cnt - 1) * tile_length t + (t + 3) = cnt * tile_length t := by
    have hc : cnt - 1 + 1 = cnt := by omega
    calc (cnt - 1) * tile_length t + (t + 3)
        = (cnt - 1 + 1) * tile_length t := by unfold tile_length; ring
    _ = cnt * tile_length t := by rw [hc]
  have hnum : t + (cnt - 1) * tile_length t = cnt * tile_length t - 3 := by
    omega
  have hD : 0 < ((max m n * tile_length t : ℕ) : ℚ) - 3 := by
    rw [hmax]
    have h5 : (4 : ℚ) ≤ ((cnt * tile_length t : ℕ) : ℚ) := by
      exact_mod_cast hc4
    linarith
  have hcast : ((t + (cnt - 1) * tile_length t : ℕ) : ℚ) =
      ((max m n * tile_length t : ℕ) : ℚ) - 3 := by
    rw [hnum, hmax]
    have h3' : 3 ≤ cnt * tile_length t := by omega
    push_cast [Nat.cast_sub h3']
    ring
  rw [hcast]
  unfold eff_scale
  rw [one_div, ← div_eq_mul_inv]
  exact div_self (ne_of_gt hD)

/-- C3 (amended): with `scale = 1`, `dim = 2`, default center at the
origin, every in-bounds index maps to a point with `0 ≤ x ≤ 1` and
`-1 ≤ y ≤ 0`; equality is achieved exactly on the dominant lattice
axis: `x = 1` is attained at index `(0, N-1, 0, T-1)` whenever `N ≥ M`
and `y = -1` at `(M-1, 0, 1, T-1)` whenever `M ≥ N`, while for `M < N`
every point has `y > -1` and for `N < M` every point has `x < 1` — the
smaller axis never reaches the unit boundary. -/
theorem chimera_c3_unit_box (m n t : ℕ) (hm : 0 < m) (hn : 0 < n)
    (ht : 0 < t) :
    (∀ i j u k, i < m → j < n → u < 2 → k < t →
      ∃ x y, mapped_point m n t 1 none 2 i j u k = [x, y] ∧
        0 ≤ x ∧ x ≤ 1 ∧ -1 ≤ y ∧ y ≤ 0) ∧
    (m ≤ n → (mapped_point m n t 1 none 2 0 (n - 1) 0 (t - 1)).getD 0 0
      = 1) ∧
    (n ≤ m → (mapped_point m n t 1 none 2 (m - 1) 0 1 (t - 1)).getD 1 0
      = -1) ∧
    (m < n → ∀ i j u k, i < m → j < n → u < 2 → k < t →
      ∃ x y, mapped_point m n t 1 none 2 i j u k = [x, y] ∧ -1 < y) ∧
    (n < m → ∀ i j u k, i < m → j < n → u < 2 → k < t →
      ∃ x y, mapped_point m n t 1 none 2 i j u k = [x, y] ∧ x < 1) := by
  refine ⟨?_, ?_, ?_, ?_, ?_⟩
  · intro i j u k hi hj hu hk
    rw [mapped_point_eval]
    refine ⟨_, _, rfl, ?_, ?_, ?_, ?_⟩
    · exact coord_nonneg m n t _ hm hn ht
    · exact coord_le_one m n t _ j n hm hn ht (xoff_le t u k hk) hj
        (le_max_right m n)
    · have h1 := coord_le_one m n t _ i m hm hn ht (yoff_le t u k hk) hi
        (le_max_left m n)
      linarith
    · have h1 := coord_nonneg m n t
        (yoff t u k + i * tile_length t) hm hn ht
      linarith
  · intro hmn
    rw [mapped_point_eval]
    have hx : xoff t 0 (t - 1) = t := by
      simp [xoff, p_index_last t ht]
    rw [hx]
    show ((t + (n - 1) * tile_length t : ℕ) : ℚ) * eff_scale m n t 1 = 1
    exact coord_extreme m n t n ht (Nat.max_eq_right hmn)
      (by simpa [Nat.max_eq_right hmn] using four_le_prod m n t hm hn ht)
  · intro hnm
    rw [mapped_point_eval]
    have hy : yoff t 1 (t - 1) = t := by
      simp [yoff, p_index_last t ht]
    rw [hy]
    show -(((t + (m - 1) * tile_length t : ℕ) : ℚ) * eff_scale m n t 1)
      = -1
    rw [coord_extreme m n t m ht (Nat.max_eq_left hnm)
      (by simpa [Nat.max_eq_left hnm] using four_le_prod m n t hm hn ht)]
  · intro hmn i j u k hi hj hu hk
    rw [mapped_point_eval]
    refine ⟨_, _, rfl, ?_⟩
    have h1 := coord_lt_one m n t _ i m hm hn ht (yoff_le t u k hk) hi
      (lt_of_lt_of_le hmn (le_max_right m n))
    linarith
  · intro hnm i j u k hi hj hu hk
    rw [mapped_point_eval]
    refine ⟨_, _, rfl, ?_⟩
    exact coord_lt_one m n t _ j n hm hn ht (xoff_le t u k hk) hj
      (lt_of_lt_of_le hnm (le_max_left m n))

/-- C3 counterexample: at `M = 1`, `N = 2`, `T = 1` (scale 1, dim 2,
origin center) the four listed indices are the whole lattice
(`i < 1`, `j < 2`, `u < 2`, `k < 1`), and none of them attains
`|y| = 1`: the claim that both `|x| = 1` and `|y| = 1` are achieved at
the extreme tile/index fails when `M ≠ N`. -/
theorem chimera_c3_counterexample :
    ((mapped_point 1 2 1 1 none 2 0 0 0 0).getD 1 0 ≠ 1 ∧
      (mapped_point 1 2 1 1 none 2 0 0 0 0).getD 1 0 ≠ -1) ∧
    ((mapped_point 1 2 1 1 none 2 0 0 1 0).getD 1 0 ≠ 1 ∧
      (mapped_point 1 2 1 1 none 2 0 0 1 0).getD 1 0 ≠ -1) ∧
    ((mapped_point 1 2 1 1 none 2 0 1 0 0).getD 1 0 ≠ 1 ∧
      (mapped_point 1 2 1 1 none 2 0 1 0 0).getD 1 0 ≠ -1) ∧
    ((mapped_point 1 2 1 1 none 2 0 1 1 0).getD 1 0 ≠ 1 ∧
      (mapped_point 1 2 1 1 none 2 0 1 1 0).getD 1 0 ≠ -1) := by
  have he : eff_scale 1 2 1 1 = 1 / 5 := by
    norm_num [eff_scale, tile_length]
  refine ⟨⟨?_, ?_⟩, ⟨?_, ?_⟩, ⟨?_, ?_⟩, ⟨?_, ?_⟩⟩ <;>
    (rw [mapped_point_eval]
     norm_num [he, yoff, xoff, p_index, tile_center, tile_length,
       List.getD])

/-- Witness for C3 (amended): bounds and both attainments at
`M = N = T = 1`; strict `y > -1` at an index of the `M = 1, N = 2`
lattice and strict `x < 1` at an index of the `M = 2, N = 1` lattice. -/
theorem chimera_c3_witness :
    (∃ x y, mapped_point 1 1 1 1 none 2 0 0 0 0 = [x, y] ∧
      0 ≤ x ∧ x ≤ 1 ∧ -1 ≤ y ∧ y ≤ 0) ∧
    (mapped_point 1 1 1 1 none 2 0 0 0 0).getD 0 0 = 1 ∧
    (mapped_point 1 1 1 1 none 2 0 0 1 0).getD 1 0 = -1 ∧
    (∃ x y, mapped_point 1 2 1 1 none 2 0 1 1 0 = [x, y] ∧ -1 < y) ∧
    (∃ x y, mapped_point 2 1 1 1 none 2 1 0 0 0 = [x, y] ∧ x < 1) :=
  ⟨(chimera_c3_unit_box 1 1 1 (by decide) (by decide) (by decide)).1
      0 0 0 0 (by decide) (by decide) (by decide) (by decide),
    (chimera_c3_unit_box 1 1 1 (by decide) (by decide) (by decide)).2.1
      (le_refl 1),
    (chimera_c3_unit_box 1 1 1 (by decide) (by decide)
      (by decide)).2.2.1 (le_refl 1),
    (chimera_c3_unit_box 1 2 1 (by decide) (by decide)
      (by decide)).2.2.2.1 (by decide) 0 1 1 0 (by decide) (by decide)
      (by decide) (by decide),
    (chimera_c3_unit_box 2 1 1 (by decide) (by decide)
      (by decide)).2.2.2.2 (by decide) 1 0 0 0 (by decide) (by decide)
      (by decide) (by decide)⟩

lemma extract_indices_all_some (G : List (ℕ × (ℕ × ℕ × ℕ × ℕ))) :
    extract_indices (G.map fun x => (x.1, some x.2)) = some G := by
  induction G with
  | nil => rfl
  | cons g gs ih => simp [extract_indices, ih]

lemma mapped_point_some (m n t : ℕ) (scale : ℚ) (center : List ℚ)
    (dim : ℕ) (hdim : 2 ≤ dim) (hc : center.length = dim) (i j u k : ℕ) :
    mapped_point m n t scale (some center) dim i j u k =
      (xy_coords ⟨m, n, t, eff_scale m n t scale, center, dim⟩
        [] i j u k).1 := by
  unfold mapped_point
  rw [placer_ok m n t scale center dim hdim hc]

lemma xy_coords_cache_free (P : Placer) (cache : OffsetCache) (i j u k : ℕ)
    (hcons : CacheConsistent P.t cache) :
    (xy_coords P cache i j u k).1 = (xy_coords P [] i j u k).1 := by
  show point_of_xy _ _ _ (xy_pre P.t cache i j u k).1
    = point_of_xy _ _ _ (xy_pre P.t [] i j u k).1
  rw [xy_pre_fst _ _ _ _ _ _ hcons,
    xy_pre_fst _ _ _ _ _ _ (cache_consistent_nil P.t)]

lemma place_all_map (P : Placer) (l : List (ℕ × (ℕ × ℕ × ℕ × ℕ)))
    (cache : OffsetCache) (hcons : CacheConsistent P.t cache) :
    place_all P l cache =
      l.map fun x =>
        (x.1, (xy_coords P [] x.2.1 x.2.2.1 x.2.2.2.1 x.2.2.2.2).1) := by
  induction l generalizing cache with
  | nil => rfl
  | cons g gs ih =>
    obtain ⟨v, i, j, u, k⟩ := g
    simp only [place_all, List.map_cons]
    congr 1
    · rw [xy_coords_cache_free P cache i j u k hcons]
    · exact ih _ (xy_pre_snd P.t cache i j u k hcons)

/-- C4: on a graph whose nodes all carry a `chimera_index`, the layout
succeeds, returns one position per node (same node list, in order), and
every node's position is exactly the point computed by the mapper that
`chimera_node_placer_2d` builds for the derived dimensions
`M = 1 + max i`, `N = 1 + max j`, `T = 1 + max k`. -/
theorem chimera_c4_layout (G : List (ℕ × (ℕ × ℕ × ℕ × ℕ))) (scale : ℚ)
    (center : List ℚ) (dim : ℕ)
    (hne : G ≠ []) (hnd : (G.map Prod.fst).Nodup)
    (hdim : 2 ≤ dim) (hc : center.length = dim) :
    ∃ pos,
      chimera_layout (G.map fun x => (x.1, some x.2)) scale (some center)
        dim = .ok pos ∧
      pos.length = G.length ∧
      pos.map Prod.fst = G.map Prod.fst ∧
      ∀ v i j u k, (v, (i, j, u, k)) ∈ G →
        (v, mapped_point (derive_m G) (derive_n G) (derive_t G) scale
          (some center) dim i j u k) ∈ pos := by
  cases G with
  | nil => exact absurd rfl hne
  | cons g gs =>
    refine ⟨(g :: gs).map fun x =>
      (x.1, mapped_point (derive_m (g :: gs)) (derive_n (g :: gs))
        (derive_t (g :: gs)) scale (some center) dim
        x.2.1 x.2.2.1 x.2.2.2.1 x.2.2.2.2), ?_, by simp, by simp, ?_⟩
    · show chimera_layout ((g :: gs).map fun x => (x.1, some x.2))
        scale (some center) dim = _
      unfold chimera_layout
      rw [extract_indices_all_some]
      show (match chimera_node_placer_2d (derive_m (g :: gs))
          (derive_n (g :: gs)) (derive_t (g :: gs)) scale (some center)
          dim with
        | .error e => Except.error e
        | .ok P => .ok (place_all P (g :: gs) [])) = _
      rw [placer_ok _ _ _ _ _ _ hdim hc]
      show Except.ok (place_all _ (g :: gs) []) = _
      rw [place_all_map _ (g :: gs) [] (cache_consistent_nil _)]
      simp only [mapped_point_some _ _ _ _ _ _ hdim hc]
    · intro v i j u k hmem
      exact List.mem_map.mpr ⟨(v, (i, j, u, k)), hmem, rfl⟩

/-- Witness for C4 on the one-node graph `[(0, (0,0,0,0))]` with
`scale = 1`, `center = (0,0)`, `dim = 2`. -/
theorem chimera_c4_witness :
    ∃ pos,
      chimera_layout ([((0 : ℕ), ((0, 0, 0, 0) :
          ℕ × ℕ × ℕ × ℕ))].map fun x => (x.1, some x.2)) 1 (some [0, 0])
        2 = .ok pos ∧
      pos.length = [((0 : ℕ), ((0, 0, 0, 0) : ℕ × ℕ × ℕ × ℕ))].length ∧
      pos.map Prod.fst =
        [((0 : ℕ), ((0, 0, 0, 0) : ℕ × ℕ × ℕ × ℕ))].map Prod.fst ∧
      ∀ v i j u k,
        (v, (i, j, u, k)) ∈ [((0 : ℕ), ((0, 0, 0, 0) : ℕ × ℕ × ℕ × ℕ))] →
        (v, mapped_point
          (derive_m [((0 : ℕ), ((0, 0, 0, 0) : ℕ × ℕ × ℕ × ℕ))])
          (derive_n [((0 : ℕ), ((0, 0, 0, 0) : ℕ × ℕ × ℕ × ℕ))])
          (derive_t [((0 : ℕ), ((0, 0, 0, 0) : ℕ × ℕ × ℕ × ℕ))]) 1
          (some [0, 0]) 2 i j u k) ∈ pos :=
  chimera_c4_layout [((0 : ℕ), ((0, 0, 0, 0) : ℕ × ℕ × ℕ × ℕ))] 1
    [0, 0] 2 (by simp) (by simp) (by decide) rfl

lemma extract_indices_none (G : List (ℕ × Option (ℕ × ℕ × ℕ × ℕ)))
    (v : ℕ) (hv : (v, none) ∈ G) : extract_indices G = none := by
  induction G with
  | nil => cases hv
  | cons g gs ih =>
    obtain ⟨w, o⟩ := g
    cases o with
    | none => rfl
    | some idx =>
      rcases List.mem_cons.mp hv with h | h
      · exact absurd (congrArg Prod.snd h) (by simp)
      · simp [extract_indices, ih h]

/-- C5: whenever at least one node of the graph lacks the
`chimera_index` attribute, `chimera_layout` fails with the
index-inference-unsupported error (the `NotImplementedError` of line
41), regardless of the rest of the graph and of the layout
parameters. -/
theorem chimera_c5_missing_attribute
    (G : List (ℕ × Option (ℕ × ℕ × ℕ × ℕ))) (scale : ℚ)
    (center? : Option (List ℚ)) (dim : ℕ) (v : ℕ)
    (hv : (v, none) ∈ G) :
    chimera_layout G scale center? dim =
      .error .indexInferenceUnsupported := by
  unfold chimera_layout
  rw [extract_indices_none G v hv]

/-- Witness for C5 on the graph `[(0, none), (1, some (0,0,0,0))]`. -/
theorem chimera_c5_witness :
    chimera_layout [(0, none), (1, some (0, 0, 0, 0))] 1 none 2 =
      .error .indexInferenceUnsupported :=
  chimera_c5_missing_attribute [(0, none), (1, some (0, 0, 0, 0))] 1
    none 2 0 (by simp)

/-- The shore-`u` indices, in order, of an assignment produced by
`_find_chimera_indices`: the `k` components of the entries whose shore
field equals `u`. -/
def shore_ks (u : ℕ) (l : List (ℕ × (ℕ × ℕ × ℕ × ℕ))) : List ℕ :=
  l.filterMap fun p => if p.2.2.2.1 = u then some p.2.2.2.2 else none

lemma assign_indices_fst (c : ℕ → ℕ) (vs : List ℕ) (s0 s1 : ℕ) :
    (assign_indices c vs s0 s1).map Prod.fst = vs := by
  induction vs generalizing s0 s1 with
  | nil => rfl
  | cons v rest ih =>
    unfold assign_indices
    split_ifs <;> simp [ih]

lemma assign_indices_shape (c : ℕ → ℕ) (vs : List ℕ) (s0 s1 : ℕ) :
    ∀ p ∈ assign_indices c vs s0 s1,
      p.2.1 = 0 ∧ p.2.2.1 = 0 ∧ p.2.2.2.1 ≤ 1 := by
  induction vs generalizing s0 s1 with
  | nil => intro p hp; cases hp
  | cons v rest ih =>
    intro p hp
    unfold assign_indices at hp
    split_ifs at hp with hu
    · rcases List.mem_cons.mp hp with h | h
      · subst h
        exact ⟨rfl, rfl, by show (0 : ℕ) ≤ 1; omega⟩
      · exact ih _ _ p h
    · rcases List.mem_cons.mp hp with h | h
      · subst h
        refine ⟨rfl, rfl, ?_⟩
        show 1 - c v ≤ 1
        omega
      · exact ih _ _ p h

lemma shore_ks_assign (c : ℕ → ℕ) (vs : List ℕ) (s0 s1 : ℕ) :
    shore_ks 0 (assign_indices c vs s0 s1) =
      List.range' s0 (vs.countP fun v => 1 - c v = 0) ∧
    shore_ks 1 (assign_indices c vs s0 s1) =
      List.range' s1 (vs.countP fun v => 1 - c v = 1) := by
  induction vs generalizing s0 s1 with
  | nil => exact ⟨rfl, rfl⟩
  | cons v rest ih =>
    unfold assign_indices
    by_cases hv : 1 - c v = 0
    · rw [if_pos hv]
      constructor
      · show shore_ks 0 ((v, (0, 0, 0, s0)) :: _) = _
        rw [show shore_ks 0 ((v, (0, 0, 0, s0)) ::
            assign_indices c rest (s0 + 1) s1) =
            s0 :: shore_ks 0 (assign_indices c rest (s0 + 1) s1) from by
          simp [shore_ks]]
        rw [(ih (s0 + 1) s1).1, List.countP_cons]
        simp [hv, List.range'_succ]
      · show shore_ks 1 ((v, (0, 0, 0, s0)) :: _) = _
        rw [show shore_ks 1 ((v, (0, 0, 0, s0)) ::
            assign_indices c rest (s0 + 1) s1) =
            shore_ks 1 (assign_indices c rest (s0 + 1) s1) from by
          simp [shore_ks]]
        rw [(ih (s0 + 1) s1).2, List.countP_cons]
        simp [hv]
    · rw [if_neg hv]
      have hv1 : 1 - c v = 1 := by omega
      constructor
      · show shore_ks 0 ((v, (0, 0, 1 - c v, s1)) :: _) = _
        rw [show shore_ks 0 ((v, (0, 0, 1 - c v, s1)) ::
            assign_indices c rest s0 (s1 + 1)) =
            shore_ks 0 (assign_indices c rest s0 (s1 + 1)) from by
          simp [shore_ks, hv]]
        rw [(ih s0 (s1 + 1)).1, List.countP_cons]
        simp [hv]
      · show shore_ks 1 ((v, (0, 0, 1 - c v, s1)) :: _) = _
        rw [show shore_ks 1 ((v, (0, 0, 1 - c v, s1)) ::
            assign_indices c rest s0 (s1 + 1)) =
            s1 :: shore_ks 1 (assign_indices c rest s0 (s1 + 1)) from by
          simp [shore_ks, hv1]]
        rw [(ih s0 (s1 + 1)).2, List.countP_cons]
        simp [hv1, List.range'_succ]

lemma flip_head (c0 : ℕ → ℕ) (v0 : ℕ) (h : c0 v0 ≤ 1) :
    flip_coloring c0 v0 v0 = 1 := by
  unfold flip_coloring
  split_ifs with h1
  · show 1 - c0 v0 = 1
    omega
  · show c0 v0 = 1
    simpa using h1

/-- C6: on a single-tile graph — sorted node list, a two-coloring from
the external bipartite `color` call, and the larger shore size equal to
the maximum degree — the inference assigns every node an index of the
form `(0, 0, u, k)` with `u ∈ {0,1}`, each shore's `k` values are
exactly `0, 1, …, shore_size_u - 1` in visiting order with no
duplicates, and the lowest-ordered node carries coloring 1 after the
flip of lines 155-156. -/
theorem chimera_c6_single_tile (v0 : ℕ) (rest : List ℕ)
    (coloring0 : ℕ → ℕ) (diameter_result : Option ℕ) (degree : ℕ → ℕ)
    (hsort : (v0 :: rest).Sorted (· ≤ ·))
    (hcol : ∀ v ∈ v0 :: rest, coloring0 v ≤ 1)
    (hgate : max
      (shore_count (v0 :: rest) (flip_coloring coloring0 v0) 0)
      (shore_count (v0 :: rest) (flip_coloring coloring0 v0) 1) =
      max_degree (v0 :: rest) degree) :
    ∃ l, find_chimera_indices (v0 :: rest) (some coloring0)
        diameter_result degree = .ok l ∧
      l.map Prod.fst = v0 :: rest ∧
      (∀ p ∈ l, p.2.1 = 0 ∧ p.2.2.1 = 0 ∧ p.2.2.2.1 ≤ 1) ∧
      shore_ks 0 l = List.range ((v0 :: rest).countP
        fun v => 1 - flip_coloring coloring0 v0 v = 0) ∧
      shore_ks 1 l = List.range ((v0 :: rest).countP
        fun v => 1 - flip_coloring coloring0 v0 v = 1) ∧
      flip_coloring coloring0 v0 v0 = 1 := by
  refine ⟨assign_indices (flip_coloring coloring0 v0) (v0 :: rest) 0 0,
    ?_, ?_, ?_, ?_, ?_, ?_⟩
  · show (if max (shore_count (v0 :: rest) (flip_coloring coloring0 v0) 0)
        (shore_count (v0 :: rest) (flip_coloring coloring0 v0) 1)
        = max_degree (v0 :: rest) degree then _ else _) = _
    rw [if_pos hgate]
  · exact assign_indices_fst _ _ _ _
  · exact assign_indices_shape _ _ _ _
  · rw [(shore_ks_assign (flip_coloring coloring0 v0) (v0 :: rest) 0 0).1,
      List.range_eq_range']
  · rw [(shore_ks_assign (flip_coloring coloring0 v0) (v0 :: rest) 0 0).2,
      List.range_eq_range']
  · exact flip_head coloring0 v0 (hcol v0 (List.mem_cons_self v0 rest))

/-- Witness for C6 on the single-tile `K(2,2)` data: sorted nodes
`[0,1,2,3]`, proper coloring `v % 2`, constant degree 2 (each node of
`K(2,2)` has degree 2 and each shore has size 2). -/
theorem chimera_c6_witness :
    ∃ l, find_chimera_indices [0, 1, 2, 3] (some (fun v => v % 2))
        (some 2) (fun _ => 2) = .ok l ∧
      l.map Prod.fst = [0, 1, 2, 3] ∧
      (∀ p ∈ l, p.2.1 = 0 ∧ p.2.2.1 = 0 ∧ p.2.2.2.1 ≤ 1) ∧
      shore_ks 0 l = List.range (([0, 1, 2, 3] : List ℕ).countP
        fun v => 1 - flip_coloring (fun v => v % 2) 0 v = 0) ∧
      shore_ks 1 l = List.range (([0, 1, 2, 3] : List ℕ).countP
        fun v => 1 - flip_coloring (fun v => v % 2) 0 v = 1) ∧
      flip_coloring (fun v => v % 2) 0 0 = 1 :=
  chimera_c6_single_tile 0 [1, 2, 3] (fun v => v % 2) (some 2)
    (fun _ => 2)
    (by decide) (by intro v hv; show v % 2 ≤ 1; omega) (by decide)

/-- C7 counterexample: two disjoint edges `0-1`, `2-3` form a bipartite
graph (proper coloring `1 - v % 2`, every degree 1) whose larger color
class has size 2 ≠ maximum degree 1 — the first conjunct checks that
this input takes the multi-tile branch — yet the program does not fail
with `NotImplementedError`: the graph is disconnected, so the
`dia = diameter(G)` call of line 182 raises `NetworkXError` first. -/
theorem chimera_c7_counterexample :
    max (shore_count [0, 1, 2, 3]
        (flip_coloring (fun v => 1 - v % 2) 0) 0)
      (shore_count [0, 1, 2, 3]
        (flip_coloring (fun v => 1 - v % 2) 0) 1) ≠
      max_degree [0, 1, 2, 3] (fun _ => 1) ∧
    find_chimera_indices [0, 1, 2, 3] (some (fun v => 1 - v % 2)) none
      (fun _ => 1) = .error .networkXError ∧
    find_chimera_indices [0, 1, 2, 3] (some (fun v => 1 - v % 2)) none
      (fun _ => 1) ≠ .error .notImplemented := by
  refine ⟨by decide, rfl, ?_⟩
  intro h
  rw [show find_chimera_indices [0, 1, 2, 3] (some (fun v => 1 - v % 2))
      none (fun _ => 1) = .error .networkXError from rfl] at h
  simp at h

/-- C7 (amended): with a non-bipartite input the inference fails with
the not-bipartite error (the exception propagated from the external
`color` call); with a bipartite input whose larger shore size differs
from the maximum degree, the multi-tile branch first evaluates
`diameter(G)` (line 182) and then fails — with the not-implemented error
of line 183 when the diameter call succeeds (connected graph), and with
the `NetworkXError` of the diameter call itself when the graph is
disconnected.  In every case the result is an error, so no indices are
assigned. -/
theorem chimera_c7_errors (nlist : List ℕ) (coloring0 : ℕ → ℕ)
    (diameter_result : Option ℕ) (degree : ℕ → ℕ) (v0 : ℕ)
    (rest : List ℕ) :
    find_chimera_indices nlist none diameter_result degree =
      .error .notBipartite ∧
    (nlist = v0 :: rest →
      max (shore_count nlist (flip_coloring coloring0 v0) 0)
          (shore_count nlist (flip_coloring coloring0 v0) 1) ≠
        max_degree nlist degree →
      ((∀ d, diameter_result = some d →
        find_chimera_indices nlist (some coloring0) diameter_result
          degree = .error .notImplemented) ∧
      (diameter_result = none →
        find_chimera_indices nlist (some coloring0) diameter_result
          degree = .error .networkXError))) := by
  constructor
  · rfl
  · intro hn hne
    subst hn
    constructor
    · intro d hd
      subst hd
      show (if max
          (shore_count (v0 :: rest) (flip_coloring coloring0 v0) 0)
          (shore_count (v0 :: rest) (flip_coloring coloring0 v0) 1)
          = max_degree (v0 :: rest) degree then _ else _) = _
      rw [if_neg hne]
    · intro hd
      subst hd
      show (if max
          (shore_count (v0 :: rest) (flip_coloring coloring0 v0) 0)
          (shore_count (v0 :: rest) (flip_coloring coloring0 v0) 1)
          = max_degree (v0 :: rest) degree then _ else _) = _
      rw [if_neg hne]

/-- Witness for C7 (amended): the coloring failure yields
`notBipartite`; the multi-tile gate on `[0,1,2]` (shore sizes 2 and 1
after flipping `v % 2`, maximum degree 1) yields `notImplemented` when
the diameter call returns a value and `networkXError` when it fails. -/
theorem chimera_c7_witness :
    find_chimera_indices [0, 1, 2] none (some 2) (fun _ => 1) =
      .error .notBipartite ∧
    find_chimera_indices [0, 1, 2] (some (fun v => v % 2)) (some 2)
      (fun _ => 1) = .error .notImplemented ∧
    find_chimera_indices [0, 1, 2] (some (fun v => v % 2)) none
      (fun _ => 1) = .error .networkXError :=
  ⟨(chimera_c7_errors [0, 1, 2] (fun v => v % 2) (some 2) (fun _ => 1)
      0 [1, 2]).1,
    ((chimera_c7_errors [0, 1, 2] (fun v => v % 2) (some 2) (fun _ => 1)
      0 [1, 2]).2 rfl (by decide)).1 2 rfl,
    ((chimera_c7_errors [0, 1, 2] (fun v => v % 2) none (fun _ => 1)
      0 [1, 2]).2 rfl (by decide)).2 rfl⟩

/-- C8: `chimera_node_placer_2d` fails with the invalid-dimension error
exactly when `dim < 2`; with `dim ≥ 2` and an explicit center whose
length differs from `dim` it fails with the invalid-center error; and
with `dim ≥ 2` and a center that is absent or of length `dim` it returns
a mapper without error (for any positive `M`, `N`, `T`). -/
theorem chimera_c8_placer_errors (m n t : ℕ) (scale : ℚ)
    (center? : Option (List ℚ)) (dim : ℕ) :
    (dim < 2 → chimera_node_placer_2d m n t scale center? dim =
      .error .invalidDimension) ∧
    (chimera_node_placer_2d m n t scale center? dim =
      .error .invalidDimension → dim < 2) ∧
    (2 ≤ dim → ∀ c, center? = some c → c.length ≠ dim →
      chimera_node_placer_2d m n t scale center? dim =
        .error .invalidCenter) ∧
    (0 < m → 0 < n → 0 < t → 2 ≤ dim →
      (center? = none ∨ ∃ c, center? = some c ∧ c.length = dim) →
      ∃ P, chimera_node_placer_2d m n t scale center? dim = .ok P) := by
  refine ⟨?_, ?_, ?_, ?_⟩
  · intro h
    simp only [chimera_node_placer_2d]
    rw [if_pos h]
  · intro h
    by_contra hlt
    push_neg at hlt
    cases center? with
    | none =>
      simp only [chimera_node_placer_2d] at h
      rw [if_neg (by omega : ¬ dim < 2)] at h
      split_ifs at h <;> simp at h
    | some c =>
      simp only [chimera_node_placer_2d] at h
      rw [if_neg (by omega : ¬ dim < 2)] at h
      split_ifs at h <;> simp at h
  · intro hdim c hc hlen
    subst hc
    simp only [chimera_node_placer_2d]
    rw [if_neg (by omega : ¬ dim < 2), if_pos hlen]
  · intro hm hn ht hdim hcen
    rcases hcen with h | ⟨c, hc, hlen⟩
    · subst h
      refine ⟨⟨m, n, t, eff_scale m n t scale,
        List.replicate dim 0, dim⟩, ?_⟩
      simp only [chimera_node_placer_2d]
      rw [if_neg (by omega : ¬ dim < 2),
        if_neg (by simp : ¬ (List.replicate dim (0 : ℚ)).length ≠ dim)]
    · subst hc
      exact ⟨_, placer_ok m n t scale c dim hdim hlen⟩

/-- Witness for C8: `dim = 1` rejected as invalid dimension; `dim = 2`
with a one-entry center rejected as invalid center; valid arguments
return a mapper. -/
theorem chimera_c8_witness :
    chimera_node_placer_2d 1 1 1 1 none 1 = .error .invalidDimension ∧
    chimera_node_placer_2d 1 1 1 1 (some [0]) 2 =
      .error .invalidCenter ∧
    ∃ P, chimera_node_placer_2d 1 1 1 1 none 2 = .ok P :=
  ⟨(chimera_c8_placer_errors 1 1 1 1 none 1).1 (by decide),
    (chimera_c8_placer_errors 1 1 1 1 (some [0]) 2).2.2.1 (by decide)
      [0] rfl (by decide),
    (chimera_c8_placer_errors 1 1 1 1 none 2).2.2.2 (by decide)
      (by decide) (by decide) (by decide) (Or.inl rfl)⟩

lemma foldl_max_max (l : List ℚ) (a b : ℚ) :
    l.foldl max (max a b) = max a (l.foldl max b) := by
  induction l generalizing b with
  | nil => rfl
  | cons c l ih =>
    show l.foldl max (max (max a b) c) = max a (l.foldl max (max b c))
    rw [max_assoc, ih]

lemma pymax_append (x y : ℚ) (xs ys : List ℚ) :
    pymax ((x :: xs) ++ y :: ys) =
      .ok (max (xs.foldl max x) (ys.foldl max y)) := by
  show Except.ok ((xs ++ y :: ys).foldl max x) = _
  rw [List.foldl_append]
  show Except.ok (ys.foldl max (max (xs.foldl max x) y)) = _
  rw [foldl_max_max]

/-- C9: with a non-empty bias map (and no explicit color kwargs), each
node's computed color is `linear_biases.get(v,0) +
quadratic_biases.get((v,v),0)`, each edge's is
`quadratic_biases.get((u,v),0) + quadratic_biases.get((v,u),0)`, and
with `vmag` the maximum absolute value over all computed node and edge
colors, each unspecified bound among `vmin`, `vmax`, `edge_vmin`,
`edge_vmax` defaults to `∓vmag` while supplied ones pass through
unchanged.  The node and edge lists must be non-empty for the `max` to
exist (claim C10 covers the empty case). -/
theorem chimera_c9_draw_colors (L : List (ℕ × ℚ))
    (Q : List ((ℕ × ℕ) × ℚ)) (nodelist : List ℕ)
    (edgelist : List (ℕ × ℕ))
    (vmin? vmax? edge_vmin? edge_vmax? : Option ℚ)
    (hbias : L ≠ [] ∨ Q ≠ []) (hnl : nodelist ≠ [])
    (hel : edgelist ≠ []) :
    ∃ vmag,
      pymax (((nodelist.map fun v => (dict_get L v).getD 0 +
          (dict_get Q (v, v)).getD 0) ++
        (edgelist.map fun p => (dict_get Q (p.1, p.2)).getD 0 +
          (dict_get Q (p.2, p.1)).getD 0)).map abs) = .ok vmag ∧
      draw_chimera_compute L Q nodelist edgelist false false
          vmin? vmax? edge_vmin? edge_vmax? =
        .ok (nodelist.map fun v => (dict_get L v).getD 0 +
            (dict_get Q (v, v)).getD 0,
          edgelist.map fun p => (dict_get Q (p.1, p.2)).getD 0 +
            (dict_get Q (p.2, p.1)).getD 0,
          some (vmin?.getD (-vmag)), some (vmax?.getD vmag),
          some (edge_vmin?.getD (-vmag)),
          some (edge_vmax?.getD vmag)) := by
  rcases nodelist with _ | ⟨v1, vs⟩
  · exact absurd rfl hnl
  rcases edgelist with _ | ⟨e1, es⟩
  · exact absurd rfl hel
  have hA : pymax ((((v1 :: vs).map (node_color_val L Q)).map abs))
      = .ok (((vs.map (node_color_val L Q)).map abs).foldl max
        |node_color_val L Q v1|) := by
    simp only [List.map_cons]
    rfl
  have hB : pymax ((((e1 :: es).map fun p =>
        edge_color_val Q p.1 p.2).map abs))
      = .ok (((es.map fun p => edge_color_val Q p.1 p.2).map abs).foldl
        max |edge_color_val Q e1.1 e1.2|) := by
    simp only [List.map_cons]
    rfl
  refine ⟨max (((vs.map (node_color_val L Q)).map abs).foldl max
      |node_color_val L Q v1|)
      (((es.map fun p => edge_color_val Q p.1 p.2).map abs).foldl max
      |edge_color_val Q e1.1 e1.2|), ?_, ?_⟩
  · show pymax ((((v1 :: vs).map (node_color_val L Q)) ++
      ((e1 :: es).map fun p => edge_color_val Q p.1 p.2)).map abs) = _
    simp only [List.map_cons, List.cons_append, List.map_append]
    exact pymax_append _ _ _ _
  · show draw_chimera_compute L Q (v1 :: vs) (e1 :: es) false false
      vmin? vmax? edge_vmin? edge_vmax? = _
    unfold draw_chimera_compute
    rw [if_pos hbias, if_neg (by simp)]
    rw [hA, hB]
    rfl

/-- Witness for C9 with `linear_biases = {0: 2}`, no quadratic biases,
one node, one edge, and an explicit `vmin = -7` (the other three bounds
left unspecified). -/
theorem chimera_c9_witness :
    ∃ vmag,
      pymax (((([0] : List ℕ).map fun v =>
          (dict_get [((0 : ℕ), (2 : ℚ))] v).getD 0 +
          (dict_get ([] : List ((ℕ × ℕ) × ℚ)) (v, v)).getD 0) ++
        (([((0 : ℕ), (1 : ℕ))]).map fun p =>
          (dict_get ([] : List ((ℕ × ℕ) × ℚ)) (p.1, p.2)).getD 0 +
          (dict_get ([] : List ((ℕ × ℕ) × ℚ)) (p.2, p.1)).getD 0)).map
            abs) = .ok vmag ∧
      draw_chimera_compute [((0 : ℕ), (2 : ℚ))] [] [0] [(0, 1)] false
          false (some (-7)) none none none =
        .ok (([0] : List ℕ).map fun v =>
            (dict_get [((0 : ℕ), (2 : ℚ))] v).getD 0 +
            (dict_get ([] : List ((ℕ × ℕ) × ℚ)) (v, v)).getD 0,
          ([((0 : ℕ), (1 : ℕ))]).map fun p =>
            (dict_get ([] : List ((ℕ × ℕ) × ℚ)) (p.1, p.2)).getD 0 +
            (dict_get ([] : List ((ℕ × ℕ) × ℚ)) (p.2, p.1)).getD 0,
          some ((some (-7) : Option ℚ).getD (-vmag)),
          some ((none : Option ℚ).getD vmag),
          some ((none : Option ℚ).getD (-vmag)),
          some ((none : Option ℚ).getD vmag)) :=
  chimera_c9_draw_colors [((0 : ℕ), (2 : ℚ))] [] [0] [(0, 1)]
    (some (-7)) none none none (Or.inl (by simp)) (by simp) (by simp)

/-- C10: when a bias map is non-empty, `draw_chimera` computes
`vmag = max(max(abs node colors), max(abs edge colors))` without
guarding against empty lists, so Python's `max` raises `ValueError`
before anything is drawn whenever the effective node list or edge list
is empty; the call proceeds only when both are non-empty.  The first
conjunct exhibits a concrete failing input: one linear bias, one node,
no edges. -/
theorem chimera_c10_empty_lists (L : List (ℕ × ℚ))
    (Q : List ((ℕ × ℕ) × ℚ)) (nodelist : List ℕ)
    (edgelist : List (ℕ × ℕ))
    (vmin? vmax? edge_vmin? edge_vmax? : Option ℚ) :
    draw_chimera_compute [((0 : ℕ), (1 : ℚ))] [] [0] [] false false
      none none none none = .error .valueError ∧
    (L ≠ [] ∨ Q ≠ [] → nodelist = [] ∨ edgelist = [] →
      draw_chimera_compute L Q nodelist edgelist false false
        vmin? vmax? edge_vmin? edge_vmax? = .error .valueError) ∧
    (∀ r, (L ≠ [] ∨ Q ≠ []) →
      draw_chimera_compute L Q nodelist edgelist false false
        vmin? vmax? edge_vmin? edge_vmax? = .ok r →
      nodelist ≠ [] ∧ edgelist ≠ []) := by
  refine ⟨rfl, ?_, ?_⟩
  · intro hbias hempty
    unfold draw_chimera_compute
    rw [if_pos hbias, if_neg (by simp)]
    rcases hempty with h | h <;> subst h <;> split <;>
      first
        | rfl
        | (rename_i heq1 heq2
           simp [pymax] at heq1 heq2)
  · intro r hbias hok
    unfold draw_chimera_compute at hok
    rw [if_pos hbias, if_neg (by simp)] at hok
    constructor
    · intro h
      subst h
      split at hok
      · rename_i heq1 heq2
        simp [pymax] at heq1 heq2
      · exact absurd hok (by simp)
    · intro h
      subst h
      split at hok
      · rename_i heq1 heq2
        simp [pymax] at heq1 heq2
      · exact absurd hok (by simp)

/-- Witness for C10: a non-empty bias map with an empty edge list makes
the computation fail with the unguarded `ValueError` from `max`. -/
theorem chimera_c10_witness :
    draw_chimera_compute [((5 : ℕ), (3 : ℚ))] [] [5] [] false false
      none none none none = .error .valueError :=
  (chimera_c10_empty_lists [((5 : ℕ), (3 : ℚ))] [] [5] [] none none
    none none).2.1 (Or.inl (by simp)) (Or.inr rfl)

/-- C4 counterexample: the empty graph vacuously satisfies "every node
carries a `chimera_index` attribute", yet `chimera_layout` does not
return an (empty) position map — Python's `max` over the empty sequence
of indices raises `ValueError` (line 37). -/
theorem chimera_c4_counterexample :
    chimera_layout ([] : List (ℕ × Option (ℕ × ℕ × ℕ × ℕ))) 1 none 2 =
      .error .valueError := rfl
